import Mathlib

/-!
# Verification of the Redox IDE disk driver core (src/kernel/disk/ide.rs)

This development shallowly embeds the request dispatcher and DMA engine of the
IDE driver: the PRDT-construction loop of `next_request`, the DMA chunk queue,
the task-file programming sequences of `Disk::read`, `Disk::write` and
`next_dma_request`, and the queue/interrupt state machine formed by
`Disk::request`, `next_request`, `next_dma_request` and `on_poll`.

Machine integers are modelled as `Nat` with explicit reductions modulo the
relevant power of two wherever the Rust code truncates (`as u32`, `as u16`) or
wraps (`u64`/`usize` arithmetic).

The single loop of `next_request` (ide.rs lines 538-579) both stores PRD
entries and pushes DMA chunks while updating the mutable variables `size` and
`i`.  It is embedded as four recursive functions with identical branch
structure, one per produced component (`prdLoopPrds`, `prdLoopChunks`,
`prdLoopSize`, `prdLoopI`); `buildPrdt` reassembles the four results.
-/

namespace RedoxIde

/-- PRDT End of Table flag (`PRD_EOT` in ide.rs). -/
def PRD_EOT : Nat := 0x8000

/-- Register offsets used by the task-file programming paths. -/
def ATA_REG_SECCOUNT0 : Nat := 0x02
def ATA_REG_LBA0 : Nat := 0x03
def ATA_REG_LBA1 : Nat := 0x04
def ATA_REG_LBA2 : Nat := 0x05
def ATA_REG_HDDEVSEL : Nat := 0x06
def ATA_REG_COMMAND : Nat := 0x07
def ATA_REG_SECCOUNT1 : Nat := 0x08
def ATA_REG_LBA3 : Nat := 0x09
def ATA_REG_LBA4 : Nat := 0x0A
def ATA_REG_LBA5 : Nat := 0x0B

/-- ATA command bytes appearing in the modelled paths. -/
def ATA_CMD_READ_PIO_EXT : Nat := 0x24
def ATA_CMD_WRITE_PIO_EXT : Nat := 0x34
def ATA_CMD_READ_DMA_EXT : Nat := 0x25
def ATA_CMD_WRITE_DMA_EXT : Nat := 0x35

/-- Physical Region Descriptor: the packed `Prd` struct of ide.rs
(`addr: u32`, `size: u16`, `eot: u16`). -/
structure Prd where
  addr : Nat
  size : Nat
  eot : Nat
deriving DecidableEq

instance : Inhabited Prd := ⟨⟨0, 0, 0⟩⟩

/-- A DMA chunk: the `DMARequest` struct of ide.rs
(`lba: u64`, `sectors: u16`, `read: bool`). -/
structure DMARequest where
  lba : Nat
  sectors : Nat
  read : Bool
deriving DecidableEq

instance : Inhabited DMARequest := ⟨⟨0, 0, false⟩⟩

/-- PRD entries stored into `prdt.mem` by the loop of `next_request`: the
`while size >= 65536 && i < 8192` body stores a full 64 KiB entry (byte count
stored as 0, EOT exactly when `size == 65536`); the trailing
`if size > 0 && i < 8192` stores one entry with byte count `size as u16` and
EOT.  `addr` is `(req.mem + i * 65536) as u32`. -/
def prdLoopPrds (mem : Nat) (size i : Nat) : List Prd :=
  if h : 65536 ≤ size ∧ i < 8192 then
    ⟨(mem + i * 65536) % 2 ^ 32, 0, if size = 65536 then PRD_EOT else 0⟩ ::
      prdLoopPrds mem (size - 65536) (i + 1)
  else if 0 < size ∧ i < 8192 then
    [⟨(mem + i * 65536) % 2 ^ 32, size % 2 ^ 16, PRD_EOT⟩]
  else []
termination_by size
decreasing_by omega

/-- DMA chunks pushed onto `dma_requests` by the same loop: one
`DMARequest { lba: block + i * 128, sectors: 128 }` per full entry, and
`sectors: (size / 512) as u16` for the trailing entry. -/
def prdLoopChunks (block : Nat) (rd : Bool) (size i : Nat) : List DMARequest :=
  if h : 65536 ≤ size ∧ i < 8192 then
    ⟨(block + i * 128) % 2 ^ 64, 128, rd⟩ ::
      prdLoopChunks block rd (size - 65536) (i + 1)
  else if 0 < size ∧ i < 8192 then
    [⟨(block + i * 128) % 2 ^ 64, size / 512 % 2 ^ 16, rd⟩]
  else []
termination_by size
decreasing_by omega

/-- Final value of the loop variable `size` (65536 subtracted per full entry,
zeroed by the trailing entry); nonzero exactly when the request overflows the
8192-entry table. -/
def prdLoopSize (size i : Nat) : Nat :=
  if h : 65536 ≤ size ∧ i < 8192 then prdLoopSize (size - 65536) (i + 1)
  else if 0 < size ∧ i < 8192 then 0
  else size
termination_by size
decreasing_by omega

/-- Final value of the loop variable `i` (incremented per stored entry). -/
def prdLoopI (size i : Nat) : Nat :=
  if h : 65536 ≤ size ∧ i < 8192 then prdLoopI (size - 65536) (i + 1)
  else if 0 < size ∧ i < 8192 then i + 1
  else i
termination_by size
decreasing_by omega

/-- Sector count of a request: `(req.extent.length + 511) / 512` computed in
`u64` (ide.rs line 536). -/
def sectorsOf (length : Nat) : Nat := (length + 511) % 2 ^ 64 / 512

/-- Result of the PRDT-construction part of `next_request`: the PRD entries
stored into `prdt.mem`, the `DMARequest`s pushed onto `dma_requests`, and the
final values of the loop variables `size` and `i` (which decide `prdt_set`). -/
structure PrdtBuild where
  prds : List Prd
  chunks : List DMARequest
  finalSize : Nat
  finalI : Nat
deriving DecidableEq

/-- The whole PRDT/chunk construction for one request: `next_request` runs the
loop with `size = sectors * 512` and `i = 0`. -/
def buildPrdt (mem block length : Nat) (rd : Bool) : PrdtBuild :=
  ⟨prdLoopPrds mem (sectorsOf length * 512) 0,
   prdLoopChunks block rd (sectorsOf length * 512) 0,
   prdLoopSize (sectorsOf length * 512) 0,
   prdLoopI (sectorsOf length * 512) 0⟩

/-- The `prdt_set` condition of `next_request`: at least one entry was stored
(`i > 0`) and no bytes remain unrepresented (`size == 0`). -/
def prdtSet (b : PrdtBuild) : Bool := 0 < b.finalI ∧ b.finalSize = 0

/-- Task-file register writes (register, value) issued by `Disk::read`
(ide.rs lines 417-432) before the PIO data loop: device-select `0x40`/`0x50`,
the high then low halves of sector count and LBA, then `READ_PIO_EXT`. -/
def readTaskFileWrites (master : Bool) (lba count : Nat) : List (Nat × Nat) :=
  [(ATA_REG_HDDEVSEL, if master then 0x40 else 0x50),
   (ATA_REG_SECCOUNT1, count / 2 ^ 8 % 2 ^ 8),
   (ATA_REG_LBA3, lba / 2 ^ 24 % 2 ^ 8),
   (ATA_REG_LBA4, lba / 2 ^ 32 % 2 ^ 8),
   (ATA_REG_LBA5, lba / 2 ^ 40 % 2 ^ 8),
   (ATA_REG_SECCOUNT0, count % 2 ^ 8),
   (ATA_REG_LBA0, lba % 2 ^ 8),
   (ATA_REG_LBA1, lba / 2 ^ 8 % 2 ^ 8),
   (ATA_REG_LBA2, lba / 2 ^ 16 % 2 ^ 8),
   (ATA_REG_COMMAND, ATA_CMD_READ_PIO_EXT)]

/-- Task-file register writes issued by `Disk::write` (ide.rs lines 458-474)
before the PIO data loop. -/
def writeTaskFileWrites (master : Bool) (lba count : Nat) : List (Nat × Nat) :=
  [(ATA_REG_HDDEVSEL, if master then 0x40 else 0x50),
   (ATA_REG_SECCOUNT1, count / 2 ^ 8 % 2 ^ 8),
   (ATA_REG_LBA3, lba / 2 ^ 24 % 2 ^ 8),
   (ATA_REG_LBA4, lba / 2 ^ 32 % 2 ^ 8),
   (ATA_REG_LBA5, lba / 2 ^ 40 % 2 ^ 8),
   (ATA_REG_SECCOUNT0, count % 2 ^ 8),
   (ATA_REG_LBA0, lba % 2 ^ 8),
   (ATA_REG_LBA1, lba / 2 ^ 8 % 2 ^ 8),
   (ATA_REG_LBA2, lba / 2 ^ 16 % 2 ^ 8),
   (ATA_REG_COMMAND, ATA_CMD_WRITE_PIO_EXT)]

/-- Task-file register writes issued by `next_dma_request` (ide.rs lines
626-646) when it arms the chunk `⟨lba, sectors, rd⟩`. -/
def dmaTaskFileWrites (master : Bool) (lba count : Nat) (rd : Bool) :
    List (Nat × Nat) :=
  [(ATA_REG_HDDEVSEL, if master then 0x40 else 0x50),
   (ATA_REG_SECCOUNT1, count / 2 ^ 8 % 2 ^ 8),
   (ATA_REG_LBA3, lba / 2 ^ 24 % 2 ^ 8),
   (ATA_REG_LBA4, lba / 2 ^ 32 % 2 ^ 8),
   (ATA_REG_LBA5, lba / 2 ^ 40 % 2 ^ 8),
   (ATA_REG_SECCOUNT0, count % 2 ^ 8),
   (ATA_REG_LBA0, lba % 2 ^ 8),
   (ATA_REG_LBA1, lba / 2 ^ 8 % 2 ^ 8),
   (ATA_REG_LBA2, lba / 2 ^ 16 % 2 ^ 8),
   (ATA_REG_COMMAND,
    if rd then ATA_CMD_READ_DMA_EXT else ATA_CMD_WRITE_DMA_EXT)]

/-- A logical disk request as submitted through `Disk::request`: the `Request`
struct of ide.rs, with the shared `complete: Arc<AtomicBool>` represented by a
numeric identity `id` so that completion and chunk-programming events can name
their request. -/
structure ReqInfo where
  id : Nat
  mem : Nat
  block : Nat
  length : Nat
  read : Bool
deriving DecidableEq

/-- Observable hardware-facing events of the dispatcher:
`complete i` is `req.complete.store(true)` for the request with identity `i`
(ide.rs line 527); `program i lba sectors` is the task-file programming of one
DMA chunk of request `i` by `next_dma_request` (ide.rs lines 626-646). -/
inductive Event where
  | complete (id : Nat)
  | program (id : Nat) (lba : Nat) (sectors : Nat)
deriving DecidableEq

/-- A queued DMA chunk together with the identity of the request it was carved
from (in the source the owner is implicit: chunks are only ever pushed for the
current request). -/
structure Chunk where
  owner : Nat
  dma : DMARequest
deriving DecidableEq

/-- Dispatcher state of one `Disk`: `current` is `self.request`, `queue` is
`self.requests`, `dmaCurrent` is `self.dma_request`, `dmaQueue` is
`self.dma_requests`, `active` is the ACT bit of the bus-master command
register `self.cmd`, and `trace` accumulates the emitted events. -/
structure Sys where
  current : Option ReqInfo
  queue : List ReqInfo
  dmaCurrent : Option Chunk
  dmaQueue : List Chunk
  active : Bool
  trace : List Event
deriving DecidableEq

/-- The DMA chunks of a request, tagged with its identity. -/
def chunksOf (r : ReqInfo) : List Chunk :=
  ((buildPrdt r.mem r.block r.length r.read).chunks).map (fun d => ⟨r.id, d⟩)

/-- The head of `next_dma_request` (ide.rs lines 614-648):
`*dma_request = dma_requests.pop_front()`, and when a chunk was obtained its
task file is programmed (emitting a `program` event). -/
def popDma (s : Sys) : Sys :=
  match s.dmaQueue with
  | c :: rest =>
    { s with
      dmaCurrent := some c, dmaQueue := rest,
      trace := s.trace ++ [Event.program c.owner c.dma.lba c.dma.sectors] }
  | [] => { s with dmaCurrent := none }

/-- `next_request` (ide.rs lines 516-611): clear ACT (`cmd.write(CMD_DIR)`),
mark the previous current request complete, pop the next request from the
queue, and if it has a buffer build its PRDT and chunk queue; when `prdt_set`
holds, arm ACT and start the first chunk (the tail call to
`next_dma_request`, which then necessarily finds a nonempty `dma_requests`
because `finalI > 0` chunks were just pushed). -/
def nextRequestFn (s : Sys) : Sys :=
  let s1 : Sys :=
    { s with
      active := false,
      trace := (match s.current with
        | some old => s.trace ++ [Event.complete old.id]
        | none => s.trace),
      current := s.queue.head?,
      queue := s.queue.tail }
  match s1.current with
  | some req =>
    if 0 < req.mem then
      let b := buildPrdt req.mem req.block req.length req.read
      let s2 : Sys := { s1 with dmaQueue := s1.dmaQueue ++ chunksOf req }
      if 0 < b.finalI ∧ b.finalSize = 0 then
        popDma { s2 with active := true }
      else s2
    else s1
  | none => s1

/-- `next_dma_request` (ide.rs lines 613-653): pop a chunk and program it;
when the chunk queue is exhausted fall through to `next_request`. -/
def nextDmaRequestFn (s : Sys) : Sys :=
  match s.dmaQueue with
  | _ :: _ => popDma s
  | [] => nextRequestFn { s with dmaCurrent := none }

/-- `Disk::request` (ide.rs lines 496-502): push the new request onto the FIFO
and advance only when no request is in flight. -/
def requestFn (s : Sys) (r : ReqInfo) : Sys :=
  let s1 : Sys := { s with queue := s.queue ++ [r] }
  if s1.current.isNone then nextRequestFn s1 else s1

/-- `Disk::on_poll` (ide.rs lines 504-514): when the bus-master signals an
interrupt and the command register still shows ACT, advance the DMA engine.
The arrival of the interrupt itself is environment-controlled, so a step with
no pending interrupt is simply not taken. -/
def onPollFn (s : Sys) : Sys :=
  if s.active then nextDmaRequestFn s else s

/-- External stimuli of one channel: a caller submitting a request, or the
IRQ handler observing a bus-master interrupt. -/
inductive Act where
  | submit (r : ReqInfo)
  | irq
deriving DecidableEq

/-- One dispatcher step per stimulus. -/
def stepFn (s : Sys) (a : Act) : Sys :=
  match a with
  | Act.submit r => requestFn s r
  | Act.irq => onPollFn s

/-- The idle initial state of a freshly constructed `Disk`. -/
def initSys : Sys := ⟨none, [], none, [], false, []⟩

/-- Execution of a stimulus sequence from the initial state. -/
def runSys (acts : List Act) : Sys := acts.foldl stepFn initSys

/-- Identities of the submitted requests of a stimulus sequence. -/
def submitIds (acts : List Act) : List Nat :=
  acts.filterMap (fun a => match a with
    | Act.submit r => some r.id
    | Act.irq => none)

/-- Scans a trace and decides whether `complete i1` occurs before any
`program i2` event: `false` exactly when some chunk of request `i2` is
programmed before request `i1` completes. -/
def goodTrace (i1 i2 : Nat) : List Event → Bool
  | [] => true
  | Event.complete i :: rest =>
    if i = i1 then true else goodTrace i1 i2 rest
  | Event.program i _ _ :: rest =>
    if i = i2 then false else goodTrace i1 i2 rest

/-- No chunk of request `i` has been programmed in the trace. -/
def NoProg (i : Nat) (tr : List Event) : Prop :=
  ∀ lba sec, Event.program i lba sec ∉ tr

/-- Identity of the in-flight request, if any. -/
def curId (s : Sys) : Option Nat := s.current.map ReqInfo.id

/-- Identities of the queued requests. -/
def queueIds (s : Sys) : List Nat := s.queue.map ReqInfo.id

/-- A submitted request is never dropped: it is still queued, or in flight,
or its completion flag has been stored. -/
def NeverDropped (i : Nat) (s : Sys) : Prop :=
  i ∈ queueIds s ∨ curId s = some i ∨ Event.complete i ∈ s.trace

/-- Chunk-ownership invariant: every queued DMA chunk belongs to the request
currently in flight. -/
def ChunksOwned (s : Sys) : Prop :=
  ∀ c ∈ s.dmaQueue, some c.owner = curId s

/-- Request `i` has not entered the system at all. -/
def Fresh (i : Nat) (s : Sys) : Prop :=
  NoProg i s.trace ∧ Event.complete i ∉ s.trace ∧ curId s ≠ some i ∧
    i ∉ queueIds s

/-- The two-request ordering invariant: either request `i1` has already
completed (and the trace is well ordered with respect to `i2`), or `i1` is
still strictly ahead of `i2` in the pipeline and nothing of `i2` has touched
the hardware. -/
def PairInv (i1 i2 : Nat) (s : Sys) : Prop :=
  (Event.complete i1 ∈ s.trace ∧ goodTrace i1 i2 s.trace = true ∧
    NeverDropped i2 s)
  ∨ (NoProg i2 s.trace ∧ Event.complete i2 ∉ s.trace ∧ curId s ≠ some i2 ∧
      ((curId s = some i1 ∧ i2 ∈ queueIds s)
       ∨ (∃ pre r1 mid r2 post, s.queue = pre ++ r1 :: mid ++ r2 :: post ∧
           r1.id = i1 ∧ r2.id = i2 ∧ i2 ∉ (pre.map ReqInfo.id) ∧
           i2 ∉ (mid.map ReqInfo.id))))


/-- Closed form of the stored PRD entries: starting at index `i0` with
`M * 65536 + r` bytes remaining (`r < 65536`) and enough table capacity, the
loop stores `M` full entries followed by one trailing entry when `r ≠ 0`;
the EOT flag sits on the last entry used. -/
theorem prdLoopPrds_closed (mem : Nat) :
    ∀ M i0 r, r < 65536 → i0 + M + (if r = 0 then 0 else 1) ≤ 8192 →
    prdLoopPrds mem (M * 65536 + r) i0 =
      (List.range' i0 M).map (fun idx =>
          ⟨(mem + idx * 65536) % 2 ^ 32, 0,
           if r = 0 ∧ idx + 1 = i0 + M then PRD_EOT else 0⟩)
        ++ (if r = 0 then [] else
            [⟨(mem + (i0 + M) * 65536) % 2 ^ 32, r % 2 ^ 16, PRD_EOT⟩]) := by
  intro M
  induction M with
  | zero =>
    intro i0 r hr hcap
    rw [prdLoopPrds]
    by_cases h0 : r = 0
    · subst h0
      simp
    · have h1 : ¬ (65536 ≤ 0 * 65536 + r ∧ i0 < 8192) := by omega
      have h2 : 0 < 0 * 65536 + r ∧ i0 < 8192 := by
        simp [h0] at hcap; omega
      rw [dif_neg h1, if_pos h2]
      simp [h0]
  | succ M ih =>
    intro i0 r hr hcap
    have h1 : 65536 ≤ (M + 1) * 65536 + r ∧ i0 < 8192 := by
      constructor <;> by_cases h0 : r = 0 <;> simp [h0] at hcap <;> omega
    have hcap2 : i0 + 1 + M + (if r = 0 then 0 else 1) ≤ 8192 := by
      by_cases h0 : r = 0 <;> simp [h0] at hcap ⊢ <;> omega
    have hsub : (M + 1) * 65536 + r - 65536 = M * 65536 + r := by omega
    have harg : i0 + (M + 1) = i0 + 1 + M := by omega
    rw [prdLoopPrds, dif_pos h1, hsub, harg, ih (i0 + 1) r hr hcap2,
      List.range'_succ]
    have heot : ((M + 1) * 65536 + r = 65536) = (r = 0 ∧ i0 + 1 = i0 + 1 + M) := by
      apply propext; omega
    simp only [List.map_cons, List.cons_append, heot]

/-- Closed form of the queued DMA chunks: one 128-sector chunk per full entry
at `lba = block + idx * 128`, then a trailing `r / 512`-sector chunk. -/
theorem prdLoopChunks_closed (block : Nat) (rd : Bool) :
    ∀ M i0 r, r < 65536 → i0 + M + (if r = 0 then 0 else 1) ≤ 8192 →
    prdLoopChunks block rd (M * 65536 + r) i0 =
      (List.range' i0 M).map (fun idx =>
          ⟨(block + idx * 128) % 2 ^ 64, 128, rd⟩)
        ++ (if r = 0 then [] else
            [⟨(block + (i0 + M) * 128) % 2 ^ 64, r / 512 % 2 ^ 16, rd⟩]) := by
  intro M
  induction M with
  | zero =>
    intro i0 r hr hcap
    rw [prdLoopChunks]
    by_cases h0 : r = 0
    · subst h0
      simp
    · have h1 : ¬ (65536 ≤ 0 * 65536 + r ∧ i0 < 8192) := by omega
      have h2 : 0 < 0 * 65536 + r ∧ i0 < 8192 := by
        simp [h0] at hcap; omega
      rw [dif_neg h1, if_pos h2]
      simp [h0]
  | succ M ih =>
    intro i0 r hr hcap
    have h1 : 65536 ≤ (M + 1) * 65536 + r ∧ i0 < 8192 := by
      constructor <;> by_cases h0 : r = 0 <;> simp [h0] at hcap <;> omega
    have hcap2 : i0 + 1 + M + (if r = 0 then 0 else 1) ≤ 8192 := by
      by_cases h0 : r = 0 <;> simp [h0] at hcap ⊢ <;> omega
    have hsub : (M + 1) * 65536 + r - 65536 = M * 65536 + r := by omega
    have harg : i0 + (M + 1) = i0 + 1 + M := by omega
    rw [prdLoopChunks, dif_pos h1, hsub, harg, ih (i0 + 1) r hr hcap2,
      List.range'_succ]
    simp only [List.map_cons, List.cons_append]

/-- Under the capacity bound the loop consumes all bytes: `size` ends at 0. -/
theorem prdLoopSize_closed :
    ∀ M i0 r, r < 65536 → i0 + M + (if r = 0 then 0 else 1) ≤ 8192 →
    prdLoopSize (M * 65536 + r) i0 = 0 := by
  intro M
  induction M with
  | zero =>
    intro i0 r hr hcap
    rw [prdLoopSize]
    by_cases h0 : r = 0
    · subst h0
      simp
    · have h1 : ¬ (65536 ≤ 0 * 65536 + r ∧ i0 < 8192) := by omega
      have h2 : 0 < 0 * 65536 + r ∧ i0 < 8192 := by
        simp [h0] at hcap; omega
      rw [dif_neg h1, if_pos h2]
  | succ M ih =>
    intro i0 r hr hcap
    have h1 : 65536 ≤ (M + 1) * 65536 + r ∧ i0 < 8192 := by
      constructor <;> by_cases h0 : r = 0 <;> simp [h0] at hcap <;> omega
    have hcap2 : i0 + 1 + M + (if r = 0 then 0 else 1) ≤ 8192 := by
      by_cases h0 : r = 0 <;> simp [h0] at hcap ⊢ <;> omega
    have hsub : (M + 1) * 65536 + r - 65536 = M * 65536 + r := by omega
    rw [prdLoopSize, dif_pos h1, hsub]
    exact ih (i0 + 1) r hr hcap2

/-- Under the capacity bound `i` ends at the number of entries used. -/
theorem prdLoopI_closed :
    ∀ M i0 r, r < 65536 → i0 + M + (if r = 0 then 0 else 1) ≤ 8192 →
    prdLoopI (M * 65536 + r) i0 = i0 + M + (if r = 0 then 0 else 1) := by
  intro M
  induction M with
  | zero =>
    intro i0 r hr hcap
    rw [prdLoopI]
    by_cases h0 : r = 0
    · subst h0
      simp
    · have h1 : ¬ (65536 ≤ 0 * 65536 + r ∧ i0 < 8192) := by omega
      have h2 : 0 < 0 * 65536 + r ∧ i0 < 8192 := by
        simp [h0] at hcap; omega
      rw [dif_neg h1, if_pos h2]
      simp [h0]
  | succ M ih =>
    intro i0 r hr hcap
    have h1 : 65536 ≤ (M + 1) * 65536 + r ∧ i0 < 8192 := by
      constructor <;> by_cases h0 : r = 0 <;> simp [h0] at hcap <;> omega
    have hcap2 : i0 + 1 + M + (if r = 0 then 0 else 1) ≤ 8192 := by
      by_cases h0 : r = 0 <;> simp [h0] at hcap ⊢ <;> omega
    have hsub : (M + 1) * 65536 + r - 65536 = M * 65536 + r := by omega
    rw [prdLoopI, dif_pos h1, hsub, ih (i0 + 1) r hr hcap2]
    omega

/-- Per-index description of the PRDT built for an `N`-sector request
(`N = sectorsOf length`): entry `j < N / 128` is a full 64 KiB entry, entry
`N / 128` is the trailing partial entry when `N % 128 ≠ 0`, nothing else is
stored. -/
theorem buildPrdt_prds_getElem (mem block length : Nat) (rd : Bool)
    (h2 : sectorsOf length ≤ 8192 * 128) :
    ∀ j, (buildPrdt mem block length rd).prds[j]? =
      if j < sectorsOf length / 128 then
        some ⟨(mem + j * 65536) % 2 ^ 32, 0,
          if sectorsOf length % 128 = 0 ∧ j + 1 = sectorsOf length / 128
          then PRD_EOT else 0⟩
      else if j = sectorsOf length / 128 ∧ sectorsOf length % 128 ≠ 0 then
        some ⟨(mem + j * 65536) % 2 ^ 32, sectorsOf length % 128 * 512,
          PRD_EOT⟩
      else none := by
  intro j
  have key : sectorsOf length * 512 =
      sectorsOf length / 128 * 65536 + sectorsOf length % 128 * 512 := by
    omega
  have hr : sectorsOf length % 128 * 512 < 65536 := by omega
  have hcap : 0 + sectorsOf length / 128 +
      (if sectorsOf length % 128 * 512 = 0 then 0 else 1) ≤ 8192 := by
    by_cases h0 : sectorsOf length % 128 = 0 <;> simp [h0] <;> omega
  have hp : (buildPrdt mem block length rd).prds =
      (List.range' 0 (sectorsOf length / 128)).map (fun idx =>
          ⟨(mem + idx * 65536) % 2 ^ 32, 0,
           if sectorsOf length % 128 * 512 = 0 ∧
               idx + 1 = 0 + sectorsOf length / 128 then PRD_EOT else 0⟩)
        ++ (if sectorsOf length % 128 * 512 = 0 then [] else
            [⟨(mem + (0 + sectorsOf length / 128) * 65536) % 2 ^ 32,
              sectorsOf length % 128 * 512 % 2 ^ 16, PRD_EOT⟩]) := by
    show prdLoopPrds mem (sectorsOf length * 512) 0 = _
    rw [key]
    exact prdLoopPrds_closed mem (sectorsOf length / 128) 0
      (sectorsOf length % 128 * 512) hr hcap
  rw [hp]
  have hlen : (List.map
      (fun idx => (⟨(mem + idx * 65536) % 2 ^ 32, 0,
        if sectorsOf length % 128 * 512 = 0 ∧
            idx + 1 = 0 + sectorsOf length / 128 then PRD_EOT else 0⟩ : Prd))
      (List.range' 0 (sectorsOf length / 128))).length =
      sectorsOf length / 128 := by
    rw [List.length_map, List.length_range']
  by_cases hj : j < sectorsOf length / 128
  · rw [List.getElem?_append_left (by rw [hlen]; exact hj), if_pos hj,
      List.getElem?_map, List.getElem?_range' 0 1 hj]
    simp only [Option.map_some']
    have h512 : (sectorsOf length % 128 * 512 = 0 ∧
        j + 1 = 0 + sectorsOf length / 128) =
        (sectorsOf length % 128 = 0 ∧ j + 1 = sectorsOf length / 128) := by
      apply propext; omega
    have hz : 0 + 1 * j = j := by omega
    rw [hz]
    simp only [h512]
  · rw [List.getElem?_append_right (by rw [hlen]; omega), if_neg hj, hlen]
    by_cases hq : sectorsOf length % 128 = 0
    · have : sectorsOf length % 128 * 512 = 0 := by omega
      rw [if_pos this, if_neg (fun hc => hc.2 hq)]
      simp
    · have hne : ¬ sectorsOf length % 128 * 512 = 0 := by omega
      rw [if_neg hne]
      by_cases hjm : j = sectorsOf length / 128
      · rw [if_pos ⟨hjm, hq⟩]
        subst hjm
        have h16 : sectorsOf length % 128 * 512 % 2 ^ 16 =
            sectorsOf length % 128 * 512 := by omega
        have hz : (0 + sectorsOf length / 128) * 65536 =
            sectorsOf length / 128 * 65536 := by omega
        simp only [Nat.sub_self, List.getElem?_cons_zero, h16, hz]
      · rw [if_neg (fun hc => hjm hc.1)]
        have : 1 ≤ j - sectorsOf length / 128 := by omega
        rcases Nat.exists_eq_add_of_le this with ⟨k, hk⟩
        rw [hk]
        simp

/-- Length of the built PRDT: `⌈N / 128⌉` entries. -/
theorem buildPrdt_prds_length (mem block length : Nat) (rd : Bool)
    (h2 : sectorsOf length ≤ 8192 * 128) :
    (buildPrdt mem block length rd).prds.length =
      (sectorsOf length + 127) / 128 := by
  have key : sectorsOf length * 512 =
      sectorsOf length / 128 * 65536 + sectorsOf length % 128 * 512 := by
    omega
  have hr : sectorsOf length % 128 * 512 < 65536 := by omega
  have hcap : 0 + sectorsOf length / 128 +
      (if sectorsOf length % 128 * 512 = 0 then 0 else 1) ≤ 8192 := by
    by_cases h0 : sectorsOf length % 128 = 0 <;> simp [h0] <;> omega
  have hp := prdLoopPrds_closed mem (sectorsOf length / 128) 0
    (sectorsOf length % 128 * 512) hr hcap
  show (prdLoopPrds mem (sectorsOf length * 512) 0).length = _
  rw [key, hp, List.length_append, List.length_map, List.length_range']
  by_cases h0 : sectorsOf length % 128 = 0
  · have : sectorsOf length % 128 * 512 = 0 := by omega
    rw [if_pos this]
    simp only [List.length_nil]
    omega
  · have hne : ¬ sectorsOf length % 128 * 512 = 0 := by omega
    rw [if_neg hne]
    simp only [List.length_cons, List.length_nil]
    omega

/-- C1: for a DMA request of `N = ⌈length/512⌉` sectors (`1 ≤ N ≤ 8192·128`)
with a non-null buffer that fits below the 4 GiB bus-master limit, the PRDT
built by `next_request` has `⌈N/128⌉` entries; each of the `⌊N/128⌋` full
entries has byte-count 0 and address `mem + 65536·j`; when `N mod 128 ≠ 0`
the last entry has byte-count `(N mod 128)·512`; and an entry carries the
end-of-table flag exactly when it is the last entry used. -/
theorem c1_prdt_shape (mem block length : Nat) (rd : Bool)
    (hmem : 0 < mem)
    (hN1 : 1 ≤ sectorsOf length) (hN2 : sectorsOf length ≤ 8192 * 128)
    (hfit : mem + sectorsOf length * 512 ≤ 2 ^ 32) :
    (buildPrdt mem block length rd).prds.length =
        (sectorsOf length + 127) / 128
    ∧ (∀ j < sectorsOf length / 128, ∃ p : Prd,
        (buildPrdt mem block length rd).prds[j]? = some p ∧
        p.size = 0 ∧ p.addr = mem + 65536 * j)
    ∧ (sectorsOf length % 128 ≠ 0 → ∃ p : Prd,
        (buildPrdt mem block length rd).prds[(sectorsOf length + 127) / 128
          - 1]? = some p ∧
        p.size = sectorsOf length % 128 * 512)
    ∧ (∀ j p, (buildPrdt mem block length rd).prds[j]? = some p →
        (p.eot = PRD_EOT ↔
          j + 1 = (buildPrdt mem block length rd).prds.length)) := by
  have hget := buildPrdt_prds_getElem mem block length rd hN2
  have hlen := buildPrdt_prds_length mem block length rd hN2
  have heotne : PRD_EOT ≠ 0 := by decide
  refine ⟨hlen, ?_, ?_, ?_⟩
  · intro j hj
    rw [hget j, if_pos hj]
    refine ⟨_, rfl, rfl, ?_⟩
    show (mem + j * 65536) % 2 ^ 32 = mem + 65536 * j
    have hlt : mem + j * 65536 < 2 ^ 32 := by omega
    rw [Nat.mod_eq_of_lt hlt]
    omega
  · intro hq
    have hidx : (sectorsOf length + 127) / 128 - 1 = sectorsOf length / 128 := by
      omega
    rw [hidx, hget (sectorsOf length / 128), if_neg (by omega),
      if_pos ⟨rfl, hq⟩]
    exact ⟨_, rfl, rfl⟩
  · intro j p hjp
    rw [hlen]
    rw [hget j] at hjp
    by_cases hj : j < sectorsOf length / 128
    · rw [if_pos hj] at hjp
      have hp := Option.some.inj hjp
      subst hp
      by_cases hc : sectorsOf length % 128 = 0 ∧
          j + 1 = sectorsOf length / 128
      · rw [if_pos hc]
        have hl : j + 1 = (sectorsOf length + 127) / 128 := by omega
        simp [hl]
      · rw [if_neg hc]
        constructor
        · intro h0; exact absurd h0.symm heotne
        · intro hlast; exfalso; omega
    · rw [if_neg hj] at hjp
      by_cases hc : j = sectorsOf length / 128 ∧ sectorsOf length % 128 ≠ 0
      · rw [if_pos hc] at hjp
        have hp := Option.some.inj hjp
        subst hp
        have hl : j + 1 = (sectorsOf length + 127) / 128 := by omega
        simp [hl]
      · rw [if_neg hc] at hjp
        exact absurd hjp (by simp)

/-- Witness: the 200-sector request of spec scenario S4 (`length = 102400`,
buffer at `0x1000`). -/
theorem c1_prdt_shape_witness :
    (buildPrdt 4096 0 102400 true).prds.length =
        (sectorsOf 102400 + 127) / 128
    ∧ (∀ j < sectorsOf 102400 / 128, ∃ p : Prd,
        (buildPrdt 4096 0 102400 true).prds[j]? = some p ∧
        p.size = 0 ∧ p.addr = 4096 + 65536 * j)
    ∧ (sectorsOf 102400 % 128 ≠ 0 → ∃ p : Prd,
        (buildPrdt 4096 0 102400 true).prds[(sectorsOf 102400 + 127) / 128
          - 1]? = some p ∧
        p.size = sectorsOf 102400 % 128 * 512)
    ∧ (∀ j p, (buildPrdt 4096 0 102400 true).prds[j]? = some p →
        (p.eot = PRD_EOT ↔
          j + 1 = (buildPrdt 4096 0 102400 true).prds.length)) :=
  c1_prdt_shape 4096 0 102400 true (by decide) (by decide) (by decide)
    (by decide)

/-- Per-index description of the DMA chunk queue built for an `N`-sector
request whose LBAs do not wrap in `u64`: chunk `j` starts at
`block + 128·j` and carries 128 sectors, except the trailing chunk
(`N mod 128` sectors when `N mod 128 ≠ 0`). -/
theorem buildPrdt_chunks_getElem (mem block length : Nat) (rd : Bool)
    (h2 : sectorsOf length ≤ 8192 * 128)
    (hlba : block + sectorsOf length ≤ 2 ^ 64) :
    ∀ j, (buildPrdt mem block length rd).chunks[j]? =
      if j < (sectorsOf length + 127) / 128 then
        some ⟨block + 128 * j,
          if sectorsOf length % 128 ≠ 0 ∧
              j + 1 = (sectorsOf length + 127) / 128
          then sectorsOf length % 128 else 128, rd⟩
      else none := by
  intro j
  have key : sectorsOf length * 512 =
      sectorsOf length / 128 * 65536 + sectorsOf length % 128 * 512 := by
    omega
  have hr : sectorsOf length % 128 * 512 < 65536 := by omega
  have hcap : 0 + sectorsOf length / 128 +
      (if sectorsOf length % 128 * 512 = 0 then 0 else 1) ≤ 8192 := by
    by_cases h0 : sectorsOf length % 128 = 0 <;> simp [h0] <;> omega
  have hp : (buildPrdt mem block length rd).chunks =
      (List.range' 0 (sectorsOf length / 128)).map (fun idx =>
          ⟨(block + idx * 128) % 2 ^ 64, 128, rd⟩)
        ++ (if sectorsOf length % 128 * 512 = 0 then [] else
            [⟨(block + (0 + sectorsOf length / 128) * 128) % 2 ^ 64,
              sectorsOf length % 128 * 512 / 512 % 2 ^ 16, rd⟩]) := by
    show prdLoopChunks block rd (sectorsOf length * 512) 0 = _
    rw [key]
    exact prdLoopChunks_closed block rd (sectorsOf length / 128) 0
      (sectorsOf length % 128 * 512) hr hcap
  rw [hp]
  have hlen : (List.map
      (fun idx => (⟨(block + idx * 128) % 2 ^ 64, 128, rd⟩ : DMARequest))
      (List.range' 0 (sectorsOf length / 128))).length =
      sectorsOf length / 128 := by
    rw [List.length_map, List.length_range']
  by_cases hj : j < sectorsOf length / 128
  · rw [List.getElem?_append_left (by rw [hlen]; exact hj),
      List.getElem?_map, List.getElem?_range' 0 1 hj, if_pos (by omega)]
    simp only [Option.map_some']
    have hmod : (block + (0 + 1 * j) * 128) % 2 ^ 64 = block + 128 * j := by
      have hlt : block + (0 + 1 * j) * 128 < 2 ^ 64 := by omega
      rw [Nat.mod_eq_of_lt hlt]; omega
    rw [hmod, if_neg (by omega)]
  · rw [List.getElem?_append_right (by rw [hlen]; omega), hlen]
    by_cases hq : sectorsOf length % 128 = 0
    · have hz : sectorsOf length % 128 * 512 = 0 := by omega
      rw [if_pos hz, if_neg (by omega)]
      simp
    · have hne : ¬ sectorsOf length % 128 * 512 = 0 := by omega
      rw [if_neg hne]
      by_cases hjm : j = sectorsOf length / 128
      · have hlt : j < (sectorsOf length + 127) / 128 := by omega
        rw [if_pos hlt]
        subst hjm
        have hmod : (block + (0 + sectorsOf length / 128) * 128) % 2 ^ 64 =
            block + 128 * (sectorsOf length / 128) := by
          have hl : block + (0 + sectorsOf length / 128) * 128 < 2 ^ 64 := by
            omega
          rw [Nat.mod_eq_of_lt hl]; omega
        have hsec : sectorsOf length % 128 * 512 / 512 % 2 ^ 16 =
            sectorsOf length % 128 := by omega
        simp only [Nat.sub_self, List.getElem?_cons_zero, hmod, hsec]
        rw [if_pos (by omega)]
      · rw [if_neg (by omega)]
        have h1 : 1 ≤ j - sectorsOf length / 128 := by omega
        rcases Nat.exists_eq_add_of_le h1 with ⟨k, hk⟩
        rw [hk]
        simp

/-- Length of the built chunk queue: `⌈N / 128⌉` chunks. -/
theorem buildPrdt_chunks_length (mem block length : Nat) (rd : Bool)
    (h2 : sectorsOf length ≤ 8192 * 128) :
    (buildPrdt mem block length rd).chunks.length =
      (sectorsOf length + 127) / 128 := by
  have key : sectorsOf length * 512 =
      sectorsOf length / 128 * 65536 + sectorsOf length % 128 * 512 := by
    omega
  have hr : sectorsOf length % 128 * 512 < 65536 := by omega
  have hcap : 0 + sectorsOf length / 128 +
      (if sectorsOf length % 128 * 512 = 0 then 0 else 1) ≤ 8192 := by
    by_cases h0 : sectorsOf length % 128 = 0 <;> simp [h0] <;> omega
  have hp := prdLoopChunks_closed block rd (sectorsOf length / 128) 0
    (sectorsOf length % 128 * 512) hr hcap
  show (prdLoopChunks block rd (sectorsOf length * 512) 0).length = _
  rw [key, hp, List.length_append, List.length_map, List.length_range']
  by_cases h0 : sectorsOf length % 128 = 0
  · have hz : sectorsOf length % 128 * 512 = 0 := by omega
    rw [if_pos hz]
    simp only [List.length_nil]
    omega
  · have hne : ¬ sectorsOf length % 128 * 512 = 0 := by omega
    rw [if_neg hne]
    simp only [List.length_cons, List.length_nil]
    omega

/-- C2: for a DMA request of `N` sectors starting at block `b`,
`next_request` queues `⌈N/128⌉` chunks, chunk `j` being
`⟨b + 128·j, 128⟩` except the trailing `N mod 128`-sector chunk; queued LBAs
are strictly increasing, and `next_dma_request` consumes the queue strictly
from the front (so chunks are programmed in ascending LBA order). -/
theorem c2_chunk_order (mem block length : Nat) (rd : Bool)
    (hmem : 0 < mem)
    (hN1 : 1 ≤ sectorsOf length) (hN2 : sectorsOf length ≤ 8192 * 128)
    (hlba : block + sectorsOf length ≤ 2 ^ 64) :
    (buildPrdt mem block length rd).chunks.length =
        (sectorsOf length + 127) / 128
    ∧ (∀ j, j < (sectorsOf length + 127) / 128 →
        (buildPrdt mem block length rd).chunks[j]? = some
          ⟨block + 128 * j,
           if sectorsOf length % 128 ≠ 0 ∧
               j + 1 = (sectorsOf length + 127) / 128
           then sectorsOf length % 128 else 128, rd⟩)
    ∧ (∀ j k : Nat, ∀ a b : DMARequest, j < k →
        (buildPrdt mem block length rd).chunks[j]? = some a →
        (buildPrdt mem block length rd).chunks[k]? = some b →
        a.lba < b.lba)
    ∧ (∀ s : Sys, ∀ c rest, s.dmaQueue = c :: rest →
        (nextDmaRequestFn s).dmaCurrent = some c ∧
        (nextDmaRequestFn s).dmaQueue = rest ∧
        (nextDmaRequestFn s).trace =
          s.trace ++ [Event.program c.owner c.dma.lba c.dma.sectors]) := by
  have hget := buildPrdt_chunks_getElem mem block length rd hN2 hlba
  refine ⟨buildPrdt_chunks_length mem block length rd hN2, ?_, ?_, ?_⟩
  · intro j hj
    rw [hget j, if_pos hj]
  · intro j k a b hjk ha hb
    rw [hget j] at ha
    rw [hget k] at hb
    by_cases hk : k < (sectorsOf length + 127) / 128
    · have hj : j < (sectorsOf length + 127) / 128 := by omega
      rw [if_pos hj] at ha
      rw [if_pos hk] at hb
      have ha2 := Option.some.inj ha
      have hb2 := Option.some.inj hb
      rw [← ha2, ← hb2]
      show block + 128 * j < block + 128 * k
      omega
    · rw [if_neg hk] at hb
      exact absurd hb (by simp)
  · intro s c rest hq
    show (nextDmaRequestFn s).dmaCurrent = some c ∧ _ ∧ _
    unfold nextDmaRequestFn
    rw [hq]
    unfold popDma
    rw [hq]
    exact ⟨rfl, rfl, rfl⟩

/-- Witness: the 200-sector request of spec scenario S4, whose chunk queue is
`⟨0, 128⟩` then `⟨128, 72⟩`. -/
theorem c2_chunk_order_witness :
    (buildPrdt 4096 0 102400 true).chunks.length =
        (sectorsOf 102400 + 127) / 128
    ∧ (∀ j, j < (sectorsOf 102400 + 127) / 128 →
        (buildPrdt 4096 0 102400 true).chunks[j]? = some
          ⟨0 + 128 * j,
           if sectorsOf 102400 % 128 ≠ 0 ∧
               j + 1 = (sectorsOf 102400 + 127) / 128
           then sectorsOf 102400 % 128 else 128, true⟩)
    ∧ (∀ j k : Nat, ∀ a b : DMARequest, j < k →
        (buildPrdt 4096 0 102400 true).chunks[j]? = some a →
        (buildPrdt 4096 0 102400 true).chunks[k]? = some b →
        a.lba < b.lba)
    ∧ (∀ s : Sys, ∀ c rest, s.dmaQueue = c :: rest →
        (nextDmaRequestFn s).dmaCurrent = some c ∧
        (nextDmaRequestFn s).dmaQueue = rest ∧
        (nextDmaRequestFn s).trace =
          s.trace ++ [Event.program c.owner c.dma.lba c.dma.sectors]) :=
  c2_chunk_order 4096 0 102400 true (by decide) (by decide) (by decide)
    (by decide)

/-- C4 counterexample: the claim says the 48-bit LBA paths write 0xE0
(master) / 0xF0 (slave) to the device-select register, but `Disk::read` on a
master disk (here at `lba = 0`, `count = 1`) writes 0x40. -/
theorem c4_devsel_counterexample :
    (readTaskFileWrites true 0 1).lookup ATA_REG_HDDEVSEL = some 0x40 ∧
    (0x40 : Nat) ≠ 0xE0 := by decide

/-- C4 (amended): every 48-bit LBA transfer path (`Disk::read`,
`Disk::write` and the DMA path in `next_dma_request`) writes 0x40 to the
device-select register when the disk is the master and 0x50 when it is the
slave. -/
theorem c4_devsel_amended (master : Bool) (lba count : Nat) (rd : Bool) :
    (readTaskFileWrites master lba count).lookup ATA_REG_HDDEVSEL =
      some (if master then 0x40 else 0x50)
    ∧ (writeTaskFileWrites master lba count).lookup ATA_REG_HDDEVSEL =
      some (if master then 0x40 else 0x50)
    ∧ (dmaTaskFileWrites master lba count rd).lookup ATA_REG_HDDEVSEL =
      some (if master then 0x40 else 0x50) := by
  cases master <;> exact ⟨rfl, rfl, rfl⟩

/-- Every chunk carved from a request carries that request's identity. -/
theorem chunksOf_owner (r : ReqInfo) : ∀ c ∈ chunksOf r, c.owner = r.id := by
  intro c hc
  rcases List.mem_map.mp hc with ⟨d, _, hd⟩
  rw [← hd]

/-- A trace with no `program i2` event is well ordered. -/
theorem goodTrace_of_noProg (i1 i2 : Nat) :
    ∀ tr : List Event, NoProg i2 tr → goodTrace i1 i2 tr = true := by
  intro tr
  induction tr with
  | nil => intro _; rfl
  | cons e rest ih =>
    intro hnp
    have hrest : NoProg i2 rest := by
      intro lba sec hmem
      exact hnp lba sec (List.mem_cons_of_mem e hmem)
    cases e with
    | complete i =>
      rw [goodTrace]
      by_cases hi : i = i1
      · rw [if_pos hi]
      · rw [if_neg hi]
        exact ih hrest
    | program i lba sec =>
      rw [goodTrace]
      have hi : i ≠ i2 := by
        intro he
        exact hnp lba sec (by rw [← he]; exact List.mem_cons_self _ _)
      rw [if_neg hi]
      exact ih hrest

/-- Once `complete i1` is in a well-ordered trace, any extension is still
well ordered. -/
theorem goodTrace_append_of_mem (i1 i2 : Nat) :
    ∀ tr new : List Event, Event.complete i1 ∈ tr →
    goodTrace i1 i2 tr = true → goodTrace i1 i2 (tr ++ new) = true := by
  intro tr
  induction tr with
  | nil => intro new hmem; exact absurd hmem (List.not_mem_nil _)
  | cons e rest ih =>
    intro new hmem hgt
    cases e with
    | complete i =>
      rw [goodTrace] at hgt
      rw [List.cons_append, goodTrace]
      by_cases hi : i = i1
      · rw [if_pos hi]
      · rw [if_neg hi] at hgt ⊢
        have hmem2 : Event.complete i1 ∈ rest := by
          rcases List.mem_cons.mp hmem with h | h
          · exact absurd (Event.complete.inj h.symm) hi
          · exact h
        exact ih new hmem2 hgt
    | program i lba sec =>
      rw [goodTrace] at hgt
      rw [List.cons_append, goodTrace]
      by_cases hi : i = i2
      · rw [if_pos hi] at hgt; exact absurd hgt (by simp)
      · rw [if_neg hi] at hgt ⊢
        have hmem2 : Event.complete i1 ∈ rest := by
          rcases List.mem_cons.mp hmem with h | h
          · exact absurd h (by simp)
          · exact h
        exact ih new hmem2 hgt

/-- Appending `complete i1` to a trace with no `program i2` event produces a
well-ordered trace, whatever comes after. -/
theorem goodTrace_append_complete (i1 i2 : Nat) :
    ∀ tr more : List Event, NoProg i2 tr →
    goodTrace i1 i2 (tr ++ Event.complete i1 :: more) = true := by
  intro tr
  induction tr with
  | nil =>
    intro more _
    rw [List.nil_append, goodTrace, if_pos rfl]
  | cons e rest ih =>
    intro more hnp
    have hrest : NoProg i2 rest := by
      intro lba sec hmem
      exact hnp lba sec (List.mem_cons_of_mem e hmem)
    cases e with
    | complete i =>
      rw [List.cons_append, goodTrace]
      by_cases hi : i = i1
      · rw [if_pos hi]
      · rw [if_neg hi]
        exact ih more hrest
    | program i lba sec =>
      rw [List.cons_append, goodTrace]
      have hi : i ≠ i2 := by
        intro he
        exact hnp lba sec (by rw [← he]; exact List.mem_cons_self _ _)
      rw [if_neg hi]
      exact ih more hrest

/-- Invariant preservation along a `foldl` over dispatcher steps. -/
theorem foldl_inv (P : Sys → Prop) :
    ∀ (acts : List Act) (s : Sys), P s →
    (∀ s2 a, a ∈ acts → P s2 → P (stepFn s2 a)) →
    P (acts.foldl stepFn s) := by
  intro acts
  induction acts with
  | nil => intro s hs _; exact hs
  | cons a rest ih =>
    intro s hs hstep
    rw [List.foldl_cons]
    exact ih (stepFn s a) (hstep s a (List.mem_cons_self _ _) hs)
      (fun s2 b hb => hstep s2 b (List.mem_cons_of_mem a hb))

/-- When no request is in flight every queued chunk is orphaned, so the
ownership invariant forces the chunk queue to be empty. -/
theorem dmaQueue_nil_of_none (s : Sys) (hco : ChunksOwned s)
    (hcur : s.current = none) : s.dmaQueue = [] := by
  cases hdq : s.dmaQueue with
  | nil => rfl
  | cons c rest =>
    exfalso
    have := hco c (by rw [hdq]; exact List.mem_cons_self _ _)
    rw [curId, hcur] at this
    exact Option.noConfusion this

/-- Characterization of `next_request` from a state with an empty chunk
queue (as at both of its call sites): the queue head becomes current, the
chunk-ownership invariant is re-established, and the trace grows by the old
current's completion followed only by `program` events of the new current. -/
theorem nextRequestFn_spec (s : Sys) (hdq : s.dmaQueue = []) :
    ∃ post : List Event,
      (nextRequestFn s).queue = s.queue.tail ∧
      (nextRequestFn s).current = s.queue.head? ∧
      ChunksOwned (nextRequestFn s) ∧
      (nextRequestFn s).trace =
        (match s.current with
         | some old => s.trace ++ [Event.complete old.id]
         | none => s.trace) ++ post ∧
      (∀ e ∈ post, ∃ lba sec q, s.queue.head? = some q ∧
        e = Event.program q.id lba sec) := by
  obtain ⟨cur, queue, dmaC, dmaQ, act, tr⟩ := s
  simp only at hdq
  subst hdq
  unfold nextRequestFn
  simp only
  cases queue with
  | nil =>
    refine ⟨[], ?_⟩
    simp [ChunksOwned, List.append_nil]
  | cons q qs =>
    simp only [List.head?_cons, List.tail_cons]
    by_cases hmem : 0 < q.mem
    · rw [if_pos hmem]
      by_cases hset : 0 < (buildPrdt q.mem q.block q.length q.read).finalI ∧
          (buildPrdt q.mem q.block q.length q.read).finalSize = 0
      · rw [if_pos hset]
        cases hch : chunksOf q with
        | nil =>
          refine ⟨[], ?_⟩
          unfold popDma
          simp only [List.nil_append, hch]
          refine ⟨by simp, by simp, ?_, by simp, by simp⟩
          intro c hc
          simp only [hch] at hc
          exact absurd hc (List.not_mem_nil _)
        | cons c cs =>
          refine ⟨[Event.program c.owner c.dma.lba c.dma.sectors], ?_⟩
          unfold popDma
          simp only [List.nil_append, hch]
          refine ⟨by simp, by simp, ?_, by simp, ?_⟩
          · intro c2 hc2
            have hc2m : c2 ∈ chunksOf q := by
              rw [hch]; exact List.mem_cons_of_mem c hc2
            rw [chunksOf_owner q c2 hc2m]
            rfl
          · intro e he
            rcases List.mem_singleton.mp he with rfl
            have hcm : c ∈ chunksOf q := by
              rw [hch]; exact List.mem_cons_self _ _
            exact ⟨c.dma.lba, c.dma.sectors, q, rfl, by
              rw [chunksOf_owner q c hcm]⟩
      · rw [if_neg hset]
        refine ⟨[], ?_⟩
        simp only [List.nil_append]
        refine ⟨by simp, by simp, ?_, by simp, by simp⟩
        intro c hc
        rw [chunksOf_owner q c hc]
        rfl
    · rw [if_neg hmem]
      refine ⟨[], ?_⟩
      refine ⟨by simp, by simp, ?_, by simp, by simp⟩
      intro c hc
      exact absurd hc (List.not_mem_nil _)

/-- `next_dma_request` with a pending chunk: pop and program it. -/
theorem nextDmaRequestFn_cons (s : Sys) (c : Chunk) (rest : List Chunk)
    (h : s.dmaQueue = c :: rest) :
    nextDmaRequestFn s = { s with
      dmaCurrent := some c, dmaQueue := rest,
      trace := s.trace ++ [Event.program c.owner c.dma.lba c.dma.sectors] } := by
  obtain ⟨cur, queue, dmaC, dmaQ, act, tr⟩ := s
  simp only at h
  subst h
  rfl

/-- `next_dma_request` with an exhausted chunk queue: fall through to
`next_request`. -/
theorem nextDmaRequestFn_nil (s : Sys) (h : s.dmaQueue = []) :
    nextDmaRequestFn s = nextRequestFn { s with dmaCurrent := none } := by
  obtain ⟨cur, queue, dmaC, dmaQ, act, tr⟩ := s
  simp only at h
  subst h
  rfl

/-- `Disk::request` while a request is in flight only enqueues. -/
theorem requestFn_busy (s : Sys) (r : ReqInfo) (h : s.current.isSome) :
    requestFn s r = { s with queue := s.queue ++ [r] } := by
  obtain ⟨cur, queue, dmaC, dmaQ, act, tr⟩ := s
  cases cur with
  | none => exact absurd h (by simp)
  | some c => rfl

/-- `Disk::request` on an idle channel enqueues and advances. -/
theorem requestFn_idle (s : Sys) (r : ReqInfo) (h : s.current = none) :
    requestFn s r = nextRequestFn { s with queue := s.queue ++ [r] } := by
  obtain ⟨cur, queue, dmaC, dmaQ, act, tr⟩ := s
  simp only at h
  subst h
  rfl

/-- The chunk-ownership invariant holds initially and is preserved by every
dispatcher step. -/
theorem chunksOwned_stepFn (s : Sys) (a : Act) (hco : ChunksOwned s) :
    ChunksOwned (stepFn s a) := by
  cases a with
  | submit r =>
    show ChunksOwned (requestFn s r)
    cases hc : s.current with
    | none =>
      rw [requestFn_idle s r hc]
      have hdq : ({ s with queue := s.queue ++ [r] } : Sys).dmaQueue = [] :=
        dmaQueue_nil_of_none s hco hc
      obtain ⟨post, _, _, hco2, _, _⟩ := nextRequestFn_spec _ hdq
      exact hco2
    | some c =>
      rw [requestFn_busy s r (by rw [hc]; rfl)]
      intro c2 hc2
      exact hco c2 hc2
  | irq =>
    show ChunksOwned (onPollFn s)
    unfold onPollFn
    by_cases ha : s.active
    · rw [if_pos ha]
      cases hdq : s.dmaQueue with
      | nil =>
        rw [nextDmaRequestFn_nil s hdq]
        obtain ⟨post, _, _, hco2, _, _⟩ :=
          nextRequestFn_spec ({ s with dmaCurrent := none } : Sys) hdq
        exact hco2
      | cons c rest =>
        rw [nextDmaRequestFn_cons s c rest hdq]
        intro c2 hc2
        exact hco c2 (by rw [hdq]; exact List.mem_cons_of_mem c hc2)
    · rw [if_neg ha]
      exact hco

/-- `next_request` never drops a live request. -/
theorem neverDropped_nextRequestFn (s : Sys) (i : Nat) (hdq : s.dmaQueue = [])
    (hnd : NeverDropped i s) : NeverDropped i (nextRequestFn s) := by
  obtain ⟨post, hq, hcur, _, htr, _⟩ := nextRequestFn_spec s hdq
  rcases hnd with hmem | hcur0 | htrm
  · rcases List.mem_map.mp hmem with ⟨x, hx, hxid⟩
    cases hqs : s.queue with
    | nil => rw [hqs] at hx; exact absurd hx (List.not_mem_nil _)
    | cons q qs =>
      rw [hqs] at hx
      rcases List.mem_cons.mp hx with rfl | hx2
      · right; left
        rw [curId, hcur, hqs]
        simp [hxid]
      · left
        rw [queueIds, hq, hqs]
        exact List.mem_map.mpr ⟨x, hx2, hxid⟩
  · right; right
    rw [htr]
    rw [curId] at hcur0
    cases hcs : s.current with
    | none => rw [hcs] at hcur0; exact absurd hcur0 (by simp)
    | some old =>
      rw [hcs] at hcur0
      have : old.id = i := by
        have := Option.some.inj hcur0
        simpa using this
      simp [this]
  · right; right
    rw [htr]
    cases s.current <;> simp [htrm]

/-- No dispatcher step drops a live request. -/
theorem neverDropped_stepFn (s : Sys) (a : Act) (i : Nat)
    (hco : ChunksOwned s) (hnd : NeverDropped i s) :
    NeverDropped i (stepFn s a) := by
  cases a with
  | submit r =>
    show NeverDropped i (requestFn s r)
    cases hc : s.current with
    | none =>
      rw [requestFn_idle s r hc]
      have hdq : ({ s with queue := s.queue ++ [r] } : Sys).dmaQueue = [] :=
        dmaQueue_nil_of_none s hco hc
      refine neverDropped_nextRequestFn _ i hdq ?_
      rcases hnd with hmem | hcur0 | htrm
      · left
        show i ∈ (s.queue ++ [r]).map ReqInfo.id
        rw [List.map_append]
        exact List.mem_append_left _ hmem
      · right; left; exact hcur0
      · right; right; exact htrm
    | some c =>
      rw [requestFn_busy s r (by rw [hc]; rfl)]
      rcases hnd with hmem | hcur0 | htrm
      · left
        show i ∈ (s.queue ++ [r]).map ReqInfo.id
        rw [List.map_append]
        exact List.mem_append_left _ hmem
      · right; left; exact hcur0
      · right; right; exact htrm
  | irq =>
    show NeverDropped i (onPollFn s)
    unfold onPollFn
    by_cases ha : s.active
    · rw [if_pos ha]
      cases hdq : s.dmaQueue with
      | nil =>
        rw [nextDmaRequestFn_nil s hdq]
        exact neverDropped_nextRequestFn _ i hdq hnd
      | cons c rest =>
        rw [nextDmaRequestFn_cons s c rest hdq]
        rcases hnd with hmem | hcur0 | htrm
        · left; exact hmem
        · right; left; exact hcur0
        · right; right; exact List.mem_append_left _ htrm
    · rw [if_neg ha]
      exact hnd

/-- A freshly submitted request is immediately live. -/
theorem neverDropped_requestFn_self (s : Sys) (r : ReqInfo)
    (hco : ChunksOwned s) : NeverDropped r.id (requestFn s r) := by
  have hmem : r.id ∈ (s.queue ++ [r]).map ReqInfo.id := by
    rw [List.map_append]
    exact List.mem_append_right _ (List.mem_singleton.mpr rfl)
  cases hc : s.current with
  | none =>
    rw [requestFn_idle s r hc]
    have hdq : ({ s with queue := s.queue ++ [r] } : Sys).dmaQueue = [] :=
      dmaQueue_nil_of_none s hco hc
    exact neverDropped_nextRequestFn _ r.id hdq (Or.inl hmem)
  | some c =>
    rw [requestFn_busy s r (by rw [hc]; rfl)]
    exact Or.inl hmem

/-- `next_request` cannot conjure events or queue entries of a request that
has never entered the system. -/
theorem fresh_nextRequestFn (s : Sys) (i : Nat) (hdq : s.dmaQueue = [])
    (hfr : Fresh i s) : Fresh i (nextRequestFn s) := by
  obtain ⟨post, hq, hcur, _, htr, hpost⟩ := nextRequestFn_spec s hdq
  obtain ⟨hnp, hnc, hcur0, hqid⟩ := hfr
  have hheadne : ∀ q : ReqInfo, s.queue.head? = some q → q.id ≠ i := by
    intro q hq0 hqi
    apply hqid
    rw [queueIds]
    cases hqs : s.queue with
    | nil =>
      rw [hqs] at hq0
      exact absurd hq0 (by simp)
    | cons x xs =>
      rw [hqs] at hq0
      have hx : x = q := by simpa using hq0
      subst hx
      rw [List.map_cons]
      exact List.mem_cons.mpr (Or.inl hqi.symm)
  have hext : ∀ e ∈ (nextRequestFn s).trace,
      e ∈ s.trace ∨ (∃ oldid, s.current.map ReqInfo.id = some oldid ∧
        e = Event.complete oldid) ∨ e ∈ post := by
    intro e he
    rw [htr] at he
    rcases List.mem_append.mp he with hin | hin
    · cases hcs : s.current with
      | none =>
        rw [hcs] at hin
        exact Or.inl hin
      | some old =>
        rw [hcs] at hin
        rcases List.mem_append.mp hin with h2 | h2
        · exact Or.inl h2
        · exact Or.inr (Or.inl ⟨old.id, rfl, List.mem_singleton.mp h2⟩)
    · exact Or.inr (Or.inr hin)
  refine ⟨?_, ?_, ?_, ?_⟩
  · intro lba sec hmem
    rcases hext _ hmem with hin | ⟨oldid, _, he⟩ | hin
    · exact hnp lba sec hin
    · exact Event.noConfusion he
    · rcases hpost _ hin with ⟨lba2, sec2, q, hq2, he⟩
      have hqi : q.id = i := (Event.program.inj he).1.symm
      exact hheadne q hq2 hqi
  · intro hmem
    rcases hext _ hmem with hin | ⟨oldid, holdid, he⟩ | hin
    · exact hnc hin
    · have : oldid = i := by
        have := Event.complete.inj he
        omega
      subst this
      rw [curId] at hcur0
      exact hcur0 holdid
    · rcases hpost _ hin with ⟨lba2, sec2, q, hq2, he⟩
      exact Event.noConfusion he
  · rw [curId, hcur]
    cases hqs : s.queue with
    | nil => simp
    | cons x xs =>
      simp only [List.head?_cons, Option.map_some']
      intro hs
      have hxi : x.id = i := by simpa using hs
      exact hheadne x (by rw [hqs]; rfl) hxi
  · rw [queueIds, hq]
    intro hmem
    apply hqid
    rw [queueIds]
    rcases List.mem_map.mp hmem with ⟨x, hx, hxid⟩
    exact List.mem_map.mpr ⟨x, List.mem_of_mem_tail hx, hxid⟩

/-- A request that never entered the system stays absent across any step
whose submission (if any) carries a different identity. -/
theorem fresh_stepFn (s : Sys) (a : Act) (i : Nat) (hco : ChunksOwned s)
    (hfr : Fresh i s) (hid : ∀ r : ReqInfo, a = Act.submit r → r.id ≠ i) :
    Fresh i (stepFn s a) := by
  obtain ⟨hnp, hnc, hcur0, hqid⟩ := hfr
  cases a with
  | submit r =>
    have hri : r.id ≠ i := hid r rfl
    have hq2 : i ∉ (s.queue ++ [r]).map ReqInfo.id := by
      rw [List.map_append]
      intro hmem
      rcases List.mem_append.mp hmem with h | h
      · exact hqid h
      · rcases List.mem_singleton.mp h with h2
        exact hri h2.symm
    show Fresh i (requestFn s r)
    cases hc : s.current with
    | none =>
      rw [requestFn_idle s r hc]
      have hdq : ({ s with queue := s.queue ++ [r] } : Sys).dmaQueue = [] :=
        dmaQueue_nil_of_none s hco hc
      exact fresh_nextRequestFn _ i hdq ⟨hnp, hnc, hcur0, hq2⟩
    | some c =>
      rw [requestFn_busy s r (by rw [hc]; rfl)]
      exact ⟨hnp, hnc, hcur0, hq2⟩
  | irq =>
    show Fresh i (onPollFn s)
    unfold onPollFn
    by_cases ha : s.active
    · rw [if_pos ha]
      cases hdq : s.dmaQueue with
      | nil =>
        rw [nextDmaRequestFn_nil s hdq]
        exact fresh_nextRequestFn _ i hdq ⟨hnp, hnc, hcur0, hqid⟩
      | cons c rest =>
        rw [nextDmaRequestFn_cons s c rest hdq]
        have hcowner : some c.owner = curId s :=
          hco c (by rw [hdq]; exact List.mem_cons_self _ _)
        have hcne : c.owner ≠ i := by
          intro he
          exact hcur0 (by rw [← hcowner, he])
        refine ⟨?_, ?_, hcur0, hqid⟩
        · intro lba sec hmem
          rcases List.mem_append.mp hmem with h | h
          · exact hnp lba sec h
          · rcases List.mem_singleton.mp h with h2
            exact hcne (Event.program.inj h2).1.symm
        · intro hmem
          rcases List.mem_append.mp hmem with h | h
          · exact hnc h
          · exact Event.noConfusion (List.mem_singleton.mp h)
    · rw [if_neg ha]
      exact ⟨hnp, hnc, hcur0, hqid⟩

/-- Every dispatcher step only appends to the trace. -/
theorem stepFn_trace_extends (s : Sys) (a : Act) (hco : ChunksOwned s) :
    ∃ ext, (stepFn s a).trace = s.trace ++ ext := by
  cases a with
  | submit r =>
    show ∃ ext, (requestFn s r).trace = s.trace ++ ext
    cases hc : s.current with
    | none =>
      rw [requestFn_idle s r hc]
      have hdq : ({ s with queue := s.queue ++ [r] } : Sys).dmaQueue = [] :=
        dmaQueue_nil_of_none s hco hc
      obtain ⟨post, _, _, _, htr, _⟩ := nextRequestFn_spec _ hdq
      refine ⟨post, ?_⟩
      rw [htr]
      have hc2 : ({ s with queue := s.queue ++ [r] } : Sys).current = none := hc
      rw [hc2]
    | some c =>
      rw [requestFn_busy s r (by rw [hc]; rfl)]
      exact ⟨[], by simp⟩
  | irq =>
    show ∃ ext, (onPollFn s).trace = s.trace ++ ext
    unfold onPollFn
    by_cases ha : s.active
    · rw [if_pos ha]
      cases hdq : s.dmaQueue with
      | nil =>
        rw [nextDmaRequestFn_nil s hdq]
        obtain ⟨post, _, _, _, htr, _⟩ :=
          nextRequestFn_spec ({ s with dmaCurrent := none } : Sys) hdq
        have hc2 : ({ s with dmaCurrent := none } : Sys).current = s.current :=
          rfl
        have ht2 : ({ s with dmaCurrent := none } : Sys).trace = s.trace := rfl
        rw [hc2, ht2] at htr
        cases hcs : s.current with
        | none =>
          rw [hcs] at htr
          exact ⟨post, htr⟩
        | some old =>
          rw [hcs] at htr
          refine ⟨Event.complete old.id :: post, ?_⟩
          rw [htr]
          simp
      | cons c rest =>
        rw [nextDmaRequestFn_cons s c rest hdq]
        exact ⟨[Event.program c.owner c.dma.lba c.dma.sectors], rfl⟩
    · rw [if_neg ha]
      exact ⟨[], by simp⟩

/-- Advancing the dispatcher once, from a state where `i1` sits ahead of `i2`
in the queue and the in-flight request (if any) is neither of them, keeps the
pair invariant pending. -/
theorem pairInv_advance (i1 i2 : Nat) (h12 : i1 ≠ i2) (s2 : Sys)
    (hdq : s2.dmaQueue = [])
    (hnp : NoProg i2 s2.trace) (hnc2 : Event.complete i2 ∉ s2.trace)
    (hcur : ∀ c0 : ReqInfo, s2.current = some c0 → c0.id ≠ i2 ∧ c0.id ≠ i1)
    (pre : List ReqInfo) (r1x : ReqInfo) (mid : List ReqInfo) (r2x : ReqInfo)
    (post : List ReqInfo)
    (hsplit : s2.queue = pre ++ r1x :: mid ++ r2x :: post)
    (h1id : r1x.id = i1) (h2id : r2x.id = i2)
    (hpre : i2 ∉ pre.map ReqInfo.id) (hmid : i2 ∉ mid.map ReqInfo.id) :
    PairInv i1 i2 (nextRequestFn s2) := by
  obtain ⟨postE, hq, hcur2, _, htr, hpost⟩ := nextRequestFn_spec s2 hdq
  have hheadid : ∀ q : ReqInfo, s2.queue.head? = some q → q.id ≠ i2 := by
    intro q hq0 hqi
    rw [hsplit] at hq0
    cases pre with
    | nil =>
      simp only [List.nil_append, List.head?_cons] at hq0
      have : r1x = q := Option.some.inj hq0
      rw [← this] at hqi
      exact h12 (h1id ▸ hqi)
    | cons p pre2 =>
      simp only [List.cons_append, List.head?_cons] at hq0
      have : p = q := Option.some.inj hq0
      apply hpre
      rw [List.map_cons]
      exact List.mem_cons.mpr (Or.inl (by rw [this, hqi]))
  have hnp2 : NoProg i2 (nextRequestFn s2).trace := by
    intro lba sec hmem
    rw [htr] at hmem
    rcases List.mem_append.mp hmem with hin | hin
    · cases hcs : s2.current with
      | none =>
        rw [hcs] at hin
        exact hnp lba sec hin
      | some old =>
        rw [hcs] at hin
        rcases List.mem_append.mp hin with h2 | h2
        · exact hnp lba sec h2
        · exact Event.noConfusion (List.mem_singleton.mp h2)
    · rcases hpost _ hin with ⟨lba2, sec2, q, hq2, he⟩
      exact hheadid q hq2 (Event.program.inj he).1.symm
  have hnc2b : Event.complete i2 ∉ (nextRequestFn s2).trace := by
    intro hmem
    rw [htr] at hmem
    rcases List.mem_append.mp hmem with hin | hin
    · cases hcs : s2.current with
      | none =>
        rw [hcs] at hin
        exact hnc2 hin
      | some old =>
        rw [hcs] at hin
        rcases List.mem_append.mp hin with h2 | h2
        · exact hnc2 h2
        · have := Event.complete.inj (List.mem_singleton.mp h2)
          exact (hcur old hcs).1 this.symm
    · rcases hpost _ hin with ⟨lba2, sec2, q, hq2, he⟩
      exact Event.noConfusion he
  right
  refine ⟨hnp2, hnc2b, ?_, ?_⟩
  · rw [curId, hcur2]
    intro hs
    cases hqs : s2.queue with
    | nil => rw [hqs] at hs; exact absurd hs (by simp)
    | cons x xs =>
      rw [hqs] at hs
      simp only [List.head?_cons, Option.map_some'] at hs
      exact hheadid x (by rw [hqs]; rfl) (Option.some.inj hs)
  · cases pre with
    | nil =>
      left
      constructor
      · rw [curId, hcur2, hsplit]
        simp [h1id]
      · rw [queueIds, hq, hsplit]
        simp only [List.nil_append, List.tail_cons]
        exact List.mem_map.mpr ⟨r2x,
          List.mem_append_right _ (List.mem_cons_self _ _), h2id⟩
    | cons p pre2 =>
      right
      refine ⟨pre2, r1x, mid, r2x, post, ?_, h1id, h2id, ?_, hmid⟩
      · rw [hq, hsplit]
        simp
      · intro hmem
        apply hpre
        rw [List.map_cons]
        exact List.mem_cons_of_mem _ hmem

/-- The pair invariant is preserved by every dispatcher step. -/
theorem pairInv_stepFn (i1 i2 : Nat) (h12 : i1 ≠ i2) (s : Sys) (a : Act)
    (hco : ChunksOwned s) (hpi : PairInv i1 i2 s) :
    PairInv i1 i2 (stepFn s a) := by
  rcases hpi with ⟨hc1, hgt, hnd2⟩ | ⟨hnp, hnc2, hcur2, hahead⟩
  · left
    obtain ⟨ext, hext⟩ := stepFn_trace_extends s a hco
    exact ⟨by rw [hext]; exact List.mem_append_left _ hc1,
      by rw [hext]; exact goodTrace_append_of_mem i1 i2 s.trace ext hc1 hgt,
      neverDropped_stepFn s a i2 hco hnd2⟩
  · cases a with
    | submit r =>
      show PairInv i1 i2 (requestFn s r)
      cases hc : s.current with
      | some c =>
        rw [requestFn_busy s r (by rw [hc]; rfl)]
        right
        refine ⟨hnp, hnc2, hcur2, ?_⟩
        rcases hahead with ⟨hcur1, hq2⟩ |
          ⟨pre, r1x, mid, r2x, post, hsplit, h1id, h2id, hpre, hmid⟩
        · left
          refine ⟨hcur1, ?_⟩
          show i2 ∈ (s.queue ++ [r]).map ReqInfo.id
          rw [List.map_append]
          exact List.mem_append_left _ hq2
        · right
          refine ⟨pre, r1x, mid, r2x, post ++ [r], ?_, h1id, h2id, hpre, hmid⟩
          show s.queue ++ [r] = pre ++ r1x :: mid ++ r2x :: (post ++ [r])
          rw [hsplit]
          simp
      | none =>
        rcases hahead with ⟨hcur1, _⟩ |
          ⟨pre, r1x, mid, r2x, post, hsplit, h1id, h2id, hpre, hmid⟩
        · rw [curId, hc] at hcur1
          exact absurd hcur1 (by simp)
        · rw [requestFn_idle s r hc]
          refine pairInv_advance i1 i2 h12 _
            (dmaQueue_nil_of_none s hco hc) hnp hnc2 ?_
            pre r1x mid r2x (post ++ [r]) ?_ h1id h2id hpre hmid
          · intro c0 hc0
            have h3 : s.current = some c0 := hc0
            rw [hc] at h3
            exact Option.noConfusion h3
          · show s.queue ++ [r] = pre ++ r1x :: mid ++ r2x :: (post ++ [r])
            rw [hsplit]
            simp
    | irq =>
      show PairInv i1 i2 (onPollFn s)
      unfold onPollFn
      by_cases ha : s.active
      · rw [if_pos ha]
        cases hdq : s.dmaQueue with
        | cons c rest =>
          rw [nextDmaRequestFn_cons s c rest hdq]
          right
          have hcowner : some c.owner = curId s :=
            hco c (by rw [hdq]; exact List.mem_cons_self _ _)
          have hcne : c.owner ≠ i2 := by
            intro he
            exact hcur2 (by rw [← hcowner, he])
          refine ⟨?_, ?_, hcur2, ?_⟩
          · intro lba sec hmem
            rcases List.mem_append.mp hmem with h | h
            · exact hnp lba sec h
            · exact hcne (Event.program.inj (List.mem_singleton.mp h)).1.symm
          · intro hmem
            rcases List.mem_append.mp hmem with h | h
            · exact hnc2 h
            · exact Event.noConfusion (List.mem_singleton.mp h)
          · exact hahead
        | nil =>
          rw [nextDmaRequestFn_nil s hdq]
          cases hcs : s.current with
          | some c0 =>
            by_cases hc0 : c0.id = i1
            · left
              obtain ⟨postE, hq, hcur3, _, htr, hpost⟩ :=
                nextRequestFn_spec
                  ({ s with current := some c0, dmaCurrent := none } : Sys) hdq
              simp only at htr
              rw [hc0] at htr
              refine ⟨?_, ?_, ?_⟩
              · rw [htr]
                simp
              · rw [htr, List.append_assoc, List.singleton_append]
                exact goodTrace_append_complete i1 i2 s.trace postE hnp
              · refine neverDropped_nextRequestFn _ i2 hdq ?_
                left
                rcases hahead with ⟨_, hq2⟩ |
                  ⟨pre, r1x, mid, r2x, post, hsplit, _, h2id, _, _⟩
                · exact hq2
                · show i2 ∈ s.queue.map ReqInfo.id
                  rw [hsplit]
                  exact List.mem_map.mpr ⟨r2x, by simp, h2id⟩
            · rcases hahead with ⟨hcur1, _⟩ |
                ⟨pre, r1x, mid, r2x, post, hsplit, h1id, h2id, hpre, hmid⟩
              · exfalso
                rw [curId, hcs] at hcur1
                exact hc0 (by simpa using hcur1)
              · refine pairInv_advance i1 i2 h12 _ hdq hnp hnc2 ?_
                  pre r1x mid r2x post hsplit h1id h2id hpre hmid
                intro c2 hc2
                have h4 : c0 = c2 := Option.some.inj hc2
                subst h4
                refine ⟨?_, hc0⟩
                intro he
                apply hcur2
                rw [curId, hcs]
                simp [he]
          | none =>
            rcases hahead with ⟨hcur1, _⟩ |
              ⟨pre, r1x, mid, r2x, post, hsplit, h1id, h2id, hpre, hmid⟩
            · rw [curId, hcs] at hcur1
              exact absurd hcur1 (by simp)
            · refine pairInv_advance i1 i2 h12 _ hdq hnp hnc2 ?_
                pre r1x mid r2x post hsplit h1id h2id hpre hmid
              intro c2 hc2
              exact Option.noConfusion hc2
      · rw [if_neg ha]
        right
        exact ⟨hnp, hnc2, hcur2, hahead⟩

/-- Submitting a fresh request `r` while `i1` is still live establishes the
pair invariant for the pair `(i1, r.id)`. -/
theorem pairInv_after_submit (i1 : Nat) (s : Sys) (r : ReqInfo)
    (h12 : i1 ≠ r.id) (hco : ChunksOwned s)
    (hnd1 : NeverDropped i1 s) (hfr : Fresh r.id s) :
    PairInv i1 r.id (requestFn s r) := by
  obtain ⟨hnp, hnc, hcur0, hqid⟩ := hfr
  have hpre_of : ∀ l1 l2 : List ReqInfo, s.queue = l1 ++ l2 →
      r.id ∉ l1.map ReqInfo.id := by
    intro l1 l2 hl hm
    apply hqid
    rw [queueIds, hl, List.map_append]
    exact List.mem_append_left _ hm
  have hmid_of : ∀ l1 x l2, s.queue = l1 ++ x :: l2 →
      r.id ∉ l2.map ReqInfo.id := by
    intro l1 x l2 hl hm
    apply hqid
    rw [queueIds, hl, List.map_append, List.map_cons]
    exact List.mem_append_right _ (List.mem_cons_of_mem _ hm)
  rcases hnd1 with hmem | hcur1 | htr1
  · rcases List.mem_map.mp hmem with ⟨x, hx, hxid⟩
    obtain ⟨l1, l2, hl⟩ := List.append_of_mem hx
    cases hc : s.current with
    | some c =>
      rw [requestFn_busy s r (by rw [hc]; rfl)]
      right
      refine ⟨hnp, hnc, hcur0, Or.inr
        ⟨l1, x, l2, r, [], ?_, hxid, rfl, hpre_of l1 (x :: l2) hl,
         hmid_of l1 x l2 hl⟩⟩
      show s.queue ++ [r] = l1 ++ x :: l2 ++ r :: []
      rw [hl]
    | none =>
      rw [requestFn_idle s r hc]
      refine pairInv_advance i1 r.id h12 _
        (dmaQueue_nil_of_none s hco hc) hnp hnc ?_ l1 x l2 r [] ?_ hxid rfl
        (hpre_of l1 (x :: l2) hl) (hmid_of l1 x l2 hl)
      · intro c0 hc0
        have h3 : s.current = some c0 := hc0
        rw [hc] at h3
        exact Option.noConfusion h3
      · show s.queue ++ [r] = l1 ++ x :: l2 ++ r :: []
        rw [hl]
  · cases hc : s.current with
    | none =>
      rw [curId, hc] at hcur1
      exact absurd hcur1 (by simp)
    | some c =>
      rw [requestFn_busy s r (by rw [hc]; rfl)]
      right
      refine ⟨hnp, hnc, hcur0, Or.inl ⟨hcur1, ?_⟩⟩
      show r.id ∈ (s.queue ++ [r]).map ReqInfo.id
      rw [List.map_append]
      exact List.mem_append_right _ (List.mem_singleton.mpr rfl)
  · left
    have hgt : goodTrace i1 r.id s.trace = true :=
      goodTrace_of_noProg i1 r.id s.trace hnp
    obtain ⟨ext, hext⟩ := stepFn_trace_extends s (Act.submit r) hco
    have hext2 : (requestFn s r).trace = s.trace ++ ext := hext
    exact ⟨by rw [hext2]; exact List.mem_append_left _ htr1,
      by rw [hext2]; exact goodTrace_append_of_mem i1 r.id s.trace ext htr1 hgt,
      neverDropped_requestFn_self s r hco⟩

/-- What the pair invariant yields in any final state: every chunk of the
later request is programmed only after the earlier request completed, and the
later request is still live. -/
theorem pairInv_goal (i1 i2 : Nat) (s : Sys) (hpi : PairInv i1 i2 s) :
    goodTrace i1 i2 s.trace = true ∧ NeverDropped i2 s := by
  rcases hpi with ⟨_, hgt, hnd⟩ | ⟨hnp, _, _, hahead⟩
  · exact ⟨hgt, hnd⟩
  · refine ⟨goodTrace_of_noProg i1 i2 s.trace hnp, ?_⟩
    rcases hahead with ⟨_, hq2⟩ |
      ⟨pre, r1x, mid, r2x, post, hsplit, _, h2id, _, _⟩
    · exact Or.inl hq2
    · left
      rw [queueIds, hsplit]
      exact List.mem_map.mpr ⟨r2x, by simp, h2id⟩

/-- `submitIds` distributes over concatenation. -/
theorem submitIds_append (a b : List Act) :
    submitIds (a ++ b) = submitIds a ++ submitIds b :=
  List.filterMap_append a b _

/-- `submitIds` on a submission. -/
theorem submitIds_cons_submit (r : ReqInfo) (acts : List Act) :
    submitIds (Act.submit r :: acts) = r.id :: submitIds acts := rfl

/-- A submission occurring in a stimulus list contributes its identity. -/
theorem mem_submitIds (acts : List Act) (r : ReqInfo)
    (h : Act.submit r ∈ acts) : r.id ∈ submitIds acts :=
  List.mem_filterMap.mpr ⟨Act.submit r, h, rfl⟩

/-- The initial state satisfies the chunk-ownership invariant and knows no
request. -/
theorem initSys_invariants (i : Nat) : ChunksOwned initSys ∧ Fresh i initSys := by
  constructor
  · intro c hc
    exact absurd hc (List.not_mem_nil _)
  · refine ⟨?_, ?_, ?_, ?_⟩
    · intro lba sec hmem
      exact absurd hmem (List.not_mem_nil _)
    · intro hmem
      exact absurd hmem (List.not_mem_nil _)
    · intro h
      exact Option.noConfusion h
    · intro h
      exact absurd h (List.not_mem_nil _)

/-- C3: for any two requests submitted in order to the same disk (within any
stimulus sequence whose submissions carry pairwise distinct identities), no
DMA chunk of the second request is ever programmed before the first request's
completion flag has been stored; and a request submitted while another is in
flight is appended to the FIFO queue and is never dropped (it stays queued,
becomes current, or has completed). -/
theorem c3_fifo_completion_order (as1 as2 as3 : List Act) (r1 r2 : ReqInfo)
    (hnodup : (submitIds
      (as1 ++ Act.submit r1 :: as2 ++ Act.submit r2 :: as3)).Nodup) :
    goodTrace r1.id r2.id
        (runSys (as1 ++ Act.submit r1 :: as2 ++ Act.submit r2 :: as3)).trace
        = true
    ∧ NeverDropped r2.id
        (runSys (as1 ++ Act.submit r1 :: as2 ++ Act.submit r2 :: as3))
    ∧ (∀ s : Sys, ∀ r : ReqInfo, s.current.isSome →
        (requestFn s r).queue = s.queue ++ [r] ∧
        (requestFn s r).current = s.current ∧
        (requestFn s r).trace = s.trace) := by
  simp only [submitIds_append, submitIds_cons_submit, List.cons_append,
    List.append_assoc] at hnodup
  have hsub1 : (r1.id :: (submitIds as2 ++ r2.id :: submitIds as3)).Nodup :=
    hnodup.of_append_right
  have h12 : r1.id ≠ r2.id := by
    intro he
    apply (List.nodup_cons.mp hsub1).1
    rw [he]
    exact List.mem_append_right _ (List.mem_cons_self _ _)
  have hdisj1 := List.disjoint_of_nodup_append hnodup
  have hA1 : r1.id ∉ submitIds as1 := fun hm =>
    hdisj1 hm (List.mem_cons_self _ _)
  have hA2 : r2.id ∉ submitIds as1 := fun hm =>
    hdisj1 hm (List.mem_cons_of_mem _
      (List.mem_append_right _ (List.mem_cons_self _ _)))
  have hB2 : r2.id ∉ submitIds as2 := fun hm =>
    (List.disjoint_of_nodup_append (List.nodup_cons.mp hsub1).2) hm
      (List.mem_cons_self _ _)
  have hrun : runSys (as1 ++ Act.submit r1 :: as2 ++ Act.submit r2 :: as3) =
      as3.foldl stepFn (stepFn (as2.foldl stepFn
        (stepFn (as1.foldl stepFn initSys) (Act.submit r1)))
        (Act.submit r2)) := by
    simp only [runSys, List.cons_append, List.append_assoc,
      List.foldl_append, List.foldl_cons]
  have hP1 : ChunksOwned (as1.foldl stepFn initSys) ∧
      Fresh r1.id (as1.foldl stepFn initSys) ∧
      Fresh r2.id (as1.foldl stepFn initSys) := by
    refine foldl_inv
      (fun t => ChunksOwned t ∧ Fresh r1.id t ∧ Fresh r2.id t) as1 initSys
      ⟨(initSys_invariants r1.id).1, (initSys_invariants r1.id).2,
       (initSys_invariants r2.id).2⟩ ?_
    rintro t a ha ⟨hc, hf1, hf2⟩
    refine ⟨chunksOwned_stepFn t a hc,
      fresh_stepFn t a r1.id hc hf1 ?_, fresh_stepFn t a r2.id hc hf2 ?_⟩
    · rintro r rfl hrid
      exact hA1 (hrid ▸ mem_submitIds as1 r ha)
    · rintro r rfl hrid
      exact hA2 (hrid ▸ mem_submitIds as1 r ha)
  have hco2 : ChunksOwned (stepFn (as1.foldl stepFn initSys)
      (Act.submit r1)) := chunksOwned_stepFn _ _ hP1.1
  have hnd2 : NeverDropped r1.id (stepFn (as1.foldl stepFn initSys)
      (Act.submit r1)) := neverDropped_requestFn_self _ r1 hP1.1
  have hfr2 : Fresh r2.id (stepFn (as1.foldl stepFn initSys)
      (Act.submit r1)) := by
    refine fresh_stepFn _ _ r2.id hP1.1 hP1.2.2 ?_
    intro r hr hrid
    have hrr : r1 = r := Act.submit.inj hr
    exact h12 (by rw [hrr, hrid])
  have hP2 : ChunksOwned (as2.foldl stepFn (stepFn
        (as1.foldl stepFn initSys) (Act.submit r1))) ∧
      NeverDropped r1.id (as2.foldl stepFn (stepFn
        (as1.foldl stepFn initSys) (Act.submit r1))) ∧
      Fresh r2.id (as2.foldl stepFn (stepFn
        (as1.foldl stepFn initSys) (Act.submit r1))) := by
    refine foldl_inv
      (fun t => ChunksOwned t ∧ NeverDropped r1.id t ∧ Fresh r2.id t)
      as2 _ ⟨hco2, hnd2, hfr2⟩ ?_
    rintro t a ha ⟨hc, hn, hf⟩
    refine ⟨chunksOwned_stepFn t a hc, neverDropped_stepFn t a r1.id hc hn,
      fresh_stepFn t a r2.id hc hf ?_⟩
    rintro r rfl hrid
    exact hB2 (hrid ▸ mem_submitIds as2 r ha)
  have hco4 : ChunksOwned (stepFn (as2.foldl stepFn (stepFn
      (as1.foldl stepFn initSys) (Act.submit r1))) (Act.submit r2)) :=
    chunksOwned_stepFn _ _ hP2.1
  have hpi4 : PairInv r1.id r2.id (stepFn (as2.foldl stepFn (stepFn
      (as1.foldl stepFn initSys) (Act.submit r1))) (Act.submit r2)) :=
    pairInv_after_submit r1.id _ r2 h12 hP2.1 hP2.2.1 hP2.2.2
  have hP3 : ChunksOwned (as3.foldl stepFn (stepFn (as2.foldl stepFn
        (stepFn (as1.foldl stepFn initSys) (Act.submit r1)))
        (Act.submit r2))) ∧
      PairInv r1.id r2.id (as3.foldl stepFn (stepFn (as2.foldl stepFn
        (stepFn (as1.foldl stepFn initSys) (Act.submit r1)))
        (Act.submit r2))) := by
    refine foldl_inv
      (fun t => ChunksOwned t ∧ PairInv r1.id r2.id t)
      as3 _ ⟨hco4, hpi4⟩ ?_
    rintro t a ha ⟨hc, hp⟩
    exact ⟨chunksOwned_stepFn t a hc,
      pairInv_stepFn r1.id r2.id h12 t a hc hp⟩
  have hfinal := pairInv_goal r1.id r2.id _ hP3.2
  rw [hrun]
  refine ⟨hfinal.1, hfinal.2, ?_⟩
  intro s r hsome
  rw [requestFn_busy s r hsome]
  exact ⟨rfl, rfl, rfl⟩

/-- Witness: two concrete reads (ids 1 and 2) submitted back to back with
three interrupts; the dispatcher completes request 1 before programming any
chunk of request 2. -/
theorem c3_fifo_completion_order_witness :
    goodTrace 1 2 (runSys ([] ++ Act.submit ⟨1, 4096, 0, 102400, true⟩ ::
        [] ++ Act.submit ⟨2, 8192, 1000, 512, false⟩ ::
        [Act.irq, Act.irq, Act.irq])).trace = true
    ∧ NeverDropped 2 (runSys ([] ++ Act.submit ⟨1, 4096, 0, 102400, true⟩ ::
        [] ++ Act.submit ⟨2, 8192, 1000, 512, false⟩ ::
        [Act.irq, Act.irq, Act.irq]))
    ∧ (∀ s : Sys, ∀ r : ReqInfo, s.current.isSome →
        (requestFn s r).queue = s.queue ++ [r] ∧
        (requestFn s r).current = s.current ∧
        (requestFn s r).trace = s.trace) :=
  c3_fifo_completion_order [] [] [Act.irq, Act.irq, Act.irq]
    ⟨1, 4096, 0, 102400, true⟩ ⟨2, 8192, 1000, 512, false⟩ (by decide)

end RedoxIde
